import Mathlib

/-
Verification of the TongueKeeper chunked transcription pipeline
(src/ml/audio_pipeline.py), as a shallow embedding in Lean 4.

Modelling conventions:
* Python floats carrying timestamps are embedded as rationals (ℚ).
* Python dicts with string keys are embedded as association lists built in
  insertion order; `lookupS` is dict lookup (first match; keys are unique
  wherever the source relies on dict semantics).
* Fallible calls are embedded as `Except`/`Option`-valued parameters.
* External collaborators (RunPod, R2, Claude) are parameters of the
  functions that call them.
-/

namespace TK

/- Data model: a word-level timestamped entry.  The Python dicts
   {"word", "start", "end", "probability"} become this structure; the
   field `stop` embeds the "end" key ("end" is a Lean keyword). -/
structure Word where
  word : String
  start : ℚ
  stop : ℚ
  probability : Option ℚ
deriving DecidableEq, Repr

/- A transcription segment {"start", "end", "text", "words"?}; the "words"
   key is optional in the source, hence `Option`. -/
structure Segment where
  start : ℚ
  stop : ℚ
  text : String
  words : Option (List Word)
deriving DecidableEq, Repr

/- Association-list lookup, embedding Python dict lookup / `dict.get`. -/
def lookupS {β : Type} (l : List (String × β)) (t : String) : Option β :=
  match l with
  | [] => none
  | (k, v) :: rest => if k = t then some v else lookupS rest t

/- The CONTACT_LANG_TO_WHISPER table from audio_pipeline.py, verbatim. -/
def CONTACT_LANG_TO_WHISPER : List (String × String) :=
  [("Korean", "ko"), ("Japanese", "ja"), ("Mandarin Chinese", "zh"),
   ("Thai", "th"), ("Vietnamese", "vi"), ("Khmer", "km"),
   ("Burmese", "my"), ("Malay", "ms"), ("Indonesian", "id"),
   ("Filipino", "tl"), ("Hindi", "hi"), ("Bengali", "bn"),
   ("Tamil", "ta"), ("Nepali", "ne"), ("Sinhala", "si"),
   ("Russian", "ru"), ("Arabic", "ar"), ("Persian", "fa"),
   ("Turkish", "tr"), ("French", "fr"), ("Spanish", "es"),
   ("Portuguese", "pt"), ("English", "en"), ("German", "de"),
   ("Italian", "it"), ("Dutch", "nl"), ("Polish", "pl"),
   ("Swedish", "sv"), ("Norwegian", "no"), ("Danish", "da"),
   ("Finnish", "fi"), ("Greek", "el"), ("Hebrew", "he"),
   ("Swahili", "sw"), ("Amharic", "am"), ("Hausa", "ha"),
   ("Yoruba", "yo"), ("Zulu", "zu"), ("Afrikaans", "af"),
   ("Urdu", "ur"), ("Gujarati", "gu"), ("Marathi", "mr"),
   ("Telugu", "te"), ("Kannada", "kn"), ("Malayalam", "ml"),
   ("Punjabi", "pa"), ("Lao", "lo"), ("Georgian", "ka"),
   ("Armenian", "hy"), ("Azerbaijani", "az"), ("Kazakh", "kk"),
   ("Uzbek", "uz"), ("Mongolian", "mn"), ("Maori", "mi"),
   ("Welsh", "cy"), ("Catalan", "ca"), ("Galician", "gl"),
   ("Basque", "eu"), ("Irish", "ga"), ("Icelandic", "is"),
   ("Estonian", "et"), ("Latvian", "lv"), ("Lithuanian", "lt"),
   ("Czech", "cs"), ("Slovak", "sk"), ("Slovenian", "sl"),
   ("Croatian", "hr"), ("Serbian", "sr"), ("Bosnian", "bs"),
   ("Bulgarian", "bg"), ("Romanian", "ro"), ("Ukrainian", "uk"),
   ("Belarusian", "be"), ("Hungarian", "hu"), ("Albanian", "sq"),
   ("Macedonian", "mk"), ("Maltese", "mt")]

/- The `for lang in contact_languages` loop of resolve_whisper_language:
   return the first mapped code (dict .get plus `if code:` truthiness). -/
def resolveLoop (langs : List String) : Option String :=
  match langs with
  | [] => none
  | l :: rest =>
    match lookupS CONTACT_LANG_TO_WHISPER l with
    | some c => if c ≠ "" then some c else resolveLoop rest
    | none => resolveLoop rest

/- resolve_whisper_language from audio_pipeline.py.  `contact_languages`
   is Optional in the source; Python truthiness of the list is the
   emptiness test. -/
def resolve_whisper_language (contact_languages : Option (List String))
    (language_code : String) : String :=
  let fromContact : Option String :=
    match contact_languages with
    | some langs => if langs = [] then none else resolveLoop langs
    | none => none
  match fromContact with
  | some c => c
  | none => if language_code.length = 2 then language_code else "en"

/- The first language of the list that the table maps, if any. -/
def firstMappedCode (langs : List String) : Option String :=
  langs.findSome? (fun l => lookupS CONTACT_LANG_TO_WHISPER l)

lemma lookupS_mem {β : Type} :
    ∀ (l : List (String × β)) (t : String) (v : β),
      lookupS l t = some v → (t, v) ∈ l := by
  intro l
  induction l with
  | nil => intro t v h; simp [lookupS] at h
  | cons p rest ih =>
    intro t v h
    obtain ⟨k, w⟩ := p
    by_cases hk : k = t
    · subst hk
      simp [lookupS] at h
      simp [h]
    · simp [lookupS, hk] at h
      exact List.mem_cons_of_mem _ (ih t v h)

lemma table_codes_ne_empty :
    ∀ p ∈ CONTACT_LANG_TO_WHISPER, p.2 ≠ "" := by decide

lemma resolveLoop_eq_firstMappedCode (langs : List String) :
    resolveLoop langs = firstMappedCode langs := by
  induction langs with
  | nil => rfl
  | cons l rest ih =>
    unfold resolveLoop firstMappedCode
    cases h : lookupS CONTACT_LANG_TO_WHISPER l with
    | none => simpa [List.findSome?, h, firstMappedCode] using ih
    | some c =>
      have hc : c ≠ "" := table_codes_ne_empty (l, c) (lookupS_mem _ _ _ h)
      simp [List.findSome?, h, hc]

/-- C10: resolve_whisper_language returns the Whisper code of the first
listed contact language present in the mapping table; if the list is
empty, None, or contains no mapped language, it returns the given
language_code exactly when that code is 2 characters long, and otherwise
returns "en". -/
theorem C10_resolve_whisper_language (cls : Option (List String)) (lc : String) :
    (resolve_whisper_language cls lc =
      match firstMappedCode (cls.getD []) with
      | some c => c
      | none => if lc.length = 2 then lc else "en") ∧
    resolve_whisper_language (some ["Jejueo", "Korean"]) "und" = "ko" ∧
    resolve_whisper_language none "fr" = "fr" ∧
    resolve_whisper_language none "und" = "en" ∧
    resolve_whisper_language (some []) "tlh" = "en" := by
  refine ⟨?_, by decide, by decide, by decide, by decide⟩
  cases cls with
  | none => rfl
  | some langs =>
    cases langs with
    | nil => rfl
    | cons l rest =>
      simp only [resolve_whisper_language, Option.getD]
      rw [if_neg (by simp), resolveLoop_eq_firstMappedCode]

/- correct_transcription from audio_pipeline.py.  The Anthropic client
   call is an external collaborator, embedded as the function `claude`;
   `anthropicApiKey` embeds the ANTHROPIC_API_KEY environment variable,
   whose Python falsiness test is equality with "". -/
def correct_transcription (anthropicApiKey : String)
    (claude : String → String → String → Option (List String) → String)
    (transcript language_name contact_language : String)
    (known_vocabulary : Option (List String)) : String :=
  if anthropicApiKey = "" then transcript
  else claude transcript language_name contact_language known_vocabulary

/-- C9: when the correction service is unconfigured (no API key set), the
correction step is skipped entirely and for every input transcript the
returned text is exactly the input text, unchanged; the function returns
normally rather than raising. -/
theorem C9_correction_skipped_when_unconfigured (key : String)
    (claude : String → String → String → Option (List String) → String)
    (t ln cl : String) (v : Option (List String)) (hkey : key = "") :
    correct_transcription key claude t ln cl v = t := by
  subst hkey
  simp [correct_transcription]

/-- C9 witness: with an empty API key the transcript passes through even
though the correction collaborator would have changed it. -/
theorem C9_witness :
    correct_transcription "" (fun t _ _ _ => t ++ " [corrected]")
      "annyeong hashimnikka" "Jejueo" "Korean" none = "annyeong hashimnikka" :=
  C9_correction_skipped_when_unconfigured "" (fun t _ _ _ => t ++ " [corrected]")
    "annyeong hashimnikka" "Jejueo" "Korean" none rfl

/- The `while offset < total_ms` loop of chunk_audio.  Each produced pair
   is the millisecond range [offset, min (offset + chunkMs) totalMs) that
   the pydub slice `audio[offset : offset + chunk_ms]` covers.  The
   `0 < chunkMs` conjunct is needed only for termination: at chunkMs = 0
   the Python loop never terminates, a case outside every claim. -/
def chunkLoop (chunkMs totalMs offset : ℕ) : List (ℕ × ℕ) :=
  if _h : offset < totalMs ∧ 0 < chunkMs then
    (offset, min (offset + chunkMs) totalMs) :: chunkLoop chunkMs totalMs (offset + chunkMs)
  else []
termination_by totalMs - offset
decreasing_by omega

/- chunk_audio from audio_pipeline.py, over the audio length in
   milliseconds (pydub's len) and the chunk length in seconds. -/
def chunk_audio (totalMs chunkSeconds : ℕ) : List (ℕ × ℕ) :=
  chunkLoop (chunkSeconds * 1000) totalMs 0

lemma chunkLoop_getElem? (c t : ℕ) (hc : 0 < c) :
    ∀ (i o : ℕ), (chunkLoop c t o)[i]? =
      if o + i * c < t then some (o + i * c, min (o + (i + 1) * c) t) else none := by
  intro i
  induction i with
  | zero =>
    intro o
    rw [chunkLoop]
    by_cases h : o < t
    · simp [h, hc, Nat.add_mul]
    · simp [h, hc]
  | succ i ih =>
    intro o
    rw [chunkLoop]
    by_cases h : o < t
    · rw [dif_pos ⟨h, hc⟩]
      rw [List.getElem?_cons_succ, ih (o + c)]
      have h1 : o + c + i * c = o + (i + 1) * c := by ring
      have h2 : o + c + (i + 1) * c = o + (i + 1 + 1) * c := by ring
      rw [h1, h2]
    · rw [dif_neg (by tauto)]
      have : ¬ o + (i + 1) * c < t := by omega
      simp [this]

lemma chunkLoop_length (c t : ℕ) (hc : 0 < c) :
    ∀ (o : ℕ), (chunkLoop c t o).length = (t - o + c - 1) / c := by
  have key : ∀ (n o : ℕ), t - o ≤ n → (chunkLoop c t o).length = (t - o + c - 1) / c := by
    intro n
    induction n with
    | zero =>
      intro o h
      have ho : ¬ o < t := by omega
      rw [chunkLoop, dif_neg (by tauto)]
      have h0 : t - o = 0 := by omega
      rw [List.length_nil, h0]
      exact (Nat.div_eq_of_lt (by omega)).symm
    | succ n ih =>
      intro o h
      by_cases ho : o < t
      · rw [chunkLoop, dif_pos ⟨ho, hc⟩]
        have hrec := ih (o + c) (by omega)
        rw [List.length_cons, hrec]
        rcases le_or_lt c (t - o) with hcase | hcase
        · have e1 : t - (o + c) + c - 1 = t - o - 1 := by omega
          have e2 : t - o + c - 1 = t - o - 1 + c := by omega
          rw [e1, e2, Nat.add_div_right _ hc]
        · have e1 : t - (o + c) + c - 1 = c - 1 := by omega
          have d1 : (c - 1) / c = 0 := Nat.div_eq_of_lt (by omega)
          have d2 : (t - o + c - 1) / c = 1 := by
            apply Nat.div_eq_of_lt_le
            · omega
            · show t - o + c - 1 < (1 + 1) * c
              omega
          rw [e1, d1, d2]
      · rw [chunkLoop, dif_neg (by tauto)]
        have h0 : t - o = 0 := by omega
        rw [List.length_nil, h0]
        exact (Nat.div_eq_of_lt (by omega)).symm
  exact fun o => key (t - o) o le_rfl

/-- C4: for every chunk length L > 0 (in seconds, hence L·1000 ms) and
total audio duration of totalMs milliseconds, chunk_audio produces
exactly ⌈totalMs / (L·1000)⌉ chunks; chunk i covers the time range
[i·L, min ((i+1)·L, totalMs)) (in ms), so the chunks are contiguous,
non-overlapping, tile [0, totalMs) with no gaps, and only the final
chunk may be shorter than L: every non-final chunk covers exactly
[i·L, (i+1)·L). -/
theorem C4_chunker_tiles (totalMs chunkSeconds : ℕ) (hL : 0 < chunkSeconds) :
    (chunk_audio totalMs chunkSeconds).length =
      (totalMs + chunkSeconds * 1000 - 1) / (chunkSeconds * 1000) ∧
    (∀ i : ℕ, (chunk_audio totalMs chunkSeconds)[i]? =
      if i * (chunkSeconds * 1000) < totalMs then
        some (i * (chunkSeconds * 1000), min ((i + 1) * (chunkSeconds * 1000)) totalMs)
      else none) ∧
    (∀ i : ℕ, i + 1 < (chunk_audio totalMs chunkSeconds).length →
      (chunk_audio totalMs chunkSeconds)[i]? =
        some (i * (chunkSeconds * 1000), (i + 1) * (chunkSeconds * 1000))) ∧
    (∀ m : ℕ, m < totalMs → ∃ a b : ℕ,
      (chunk_audio totalMs chunkSeconds)[m / (chunkSeconds * 1000)]? = some (a, b) ∧
      a ≤ m ∧ m < b) ∧
    (∀ i j a b a' b' : ℕ, i < j →
      (chunk_audio totalMs chunkSeconds)[i]? = some (a, b) →
      (chunk_audio totalMs chunkSeconds)[j]? = some (a', b') → b ≤ a') := by
  set c := chunkSeconds * 1000 with hcdef
  have hc : 0 < c := by positivity
  have hget := chunkLoop_getElem? c totalMs hc
  have hgetFinal : ∀ i : ℕ, (chunk_audio totalMs chunkSeconds)[i]? =
      if i * c < totalMs then some (i * c, min ((i + 1) * c) totalMs) else none := by
    intro i
    have := hget i 0
    simpa [chunk_audio] using this
  have hlen : (chunk_audio totalMs chunkSeconds).length = (totalMs + c - 1) / c := by
    have := chunkLoop_length c totalMs hc 0
    simpa [chunk_audio] using this
  refine ⟨hlen, hgetFinal, ?_, ?_, ?_⟩
  · intro i hi
    have hi' : i + 1 < (totalMs + c - 1) / c := by rw [← hlen]; exact hi
    have hbound : (i + 1) * c < totalMs := by
      by_contra hcon
      push_neg at hcon
      have hdiv : (totalMs + c - 1) / c < i + 2 := by
        rw [Nat.div_lt_iff_lt_mul hc]
        have e : (i + 1) * c + c = (i + 2) * c := by ring
        omega
      omega
    have hstep : i * c ≤ (i + 1) * c := Nat.mul_le_mul_right c (by omega)
    have hic : i * c < totalMs := by omega
    rw [hgetFinal i, if_pos hic]
    have hmin : min ((i + 1) * c) totalMs = (i + 1) * c := min_eq_left (by omega)
    rw [hmin]
  · intro m hm
    set i := m / c with hi
    have h1 : i * c ≤ m := Nat.div_mul_le_self m c
    have h2 : m < (i + 1) * c := by
      have hmod := Nat.mod_lt m hc
      have hdm := Nat.div_add_mod m c
      have e : (i + 1) * c = c * (m / c) + c := by rw [hi]; ring
      omega
    refine ⟨i * c, min ((i + 1) * c) totalMs, ?_, h1, ?_⟩
    · rw [hgetFinal i, if_pos (by omega)]
    · omega
  · intro i j a b a' b' hij hi hj
    rw [hgetFinal i] at hi
    rw [hgetFinal j] at hj
    by_cases hic : i * c < totalMs
    · by_cases hjc : j * c < totalMs
      · rw [if_pos hic] at hi
        rw [if_pos hjc] at hj
        have hab := Option.some.inj hi
        have hab' := Option.some.inj hj
        have hb : min ((i + 1) * c) totalMs = b := congrArg Prod.snd hab
        have ha' : j * c = a' := congrArg Prod.fst hab'
        have hmono : (i + 1) * c ≤ j * c := Nat.mul_le_mul_right c (by omega)
        calc b = min ((i + 1) * c) totalMs := hb.symm
          _ ≤ (i + 1) * c := min_le_left _ _
          _ ≤ j * c := hmono
          _ = a' := ha'
      · rw [if_neg hjc] at hj
        exact absurd hj (by simp)
    · rw [if_neg hic] at hi
      exact absurd hi (by simp)

/-- C4 witness: a 65-second (65000 ms) recording with 30-second chunks
satisfies the hypothesis 0 < 30 and yields ⌈65000/30000⌉ = 3 chunks. -/
theorem C4_witness :
    0 < 30 ∧ (chunk_audio 65000 30).length = (65000 + 30 * 1000 - 1) / (30 * 1000) :=
  ⟨by decide, (C4_chunker_tiles 65000 30 (by decide)).1⟩

/- Python str.strip(): remove leading and trailing whitespace from the
   character sequence. -/
def strip (s : String) : String :=
  String.mk (((s.data.dropWhile Char.isWhitespace).reverse.dropWhile Char.isWhitespace).reverse)

/- The qualification test of the word-collection loop in
   clip_and_upload_words: the source computes `text = w["word"].strip()`
   and keeps w when `text and len(text) > 1 and duration >= 0.2`.
   The float literal 0.2 is embedded as the rational 1/5. -/
def qualifies (w : Word) : Prop :=
  strip w.word ≠ "" ∧ 1 < (strip w.word).length ∧ (1/5 : ℚ) ≤ w.stop - w.start

instance : DecidablePred qualifies := fun w => by
  unfold qualifies
  infer_instance

/- One iteration of the `for w in seg.get("words", [])` body: insert into
   the `seen` dict (append, since Python dicts preserve insertion order)
   when the word qualifies and its stripped text is not yet a key. -/
def collectStep (seen : List (String × Word)) (w : Word) : List (String × Word) :=
  if qualifies w ∧ lookupS seen (strip w.word) = none then
    seen ++ [(strip w.word, w)]
  else seen

/- The full collection loop of clip_and_upload_words (lines 651-657). -/
def collectUniqueWords (segments : List Segment) : List (String × Word) :=
  segments.foldl (fun seen seg => (seg.words.getD []).foldl collectStep seen) []

/- All words of a transcript in document order: segment order, then word
   order within each segment. -/
def docWords (segments : List Segment) : List Word :=
  (segments.map (fun seg => seg.words.getD [])).flatten

/- The first qualifying word whose stripped text is t, in document order. -/
def firstOccurrence (t : String) : List Word → Option Word
  | [] => none
  | w :: ws => if qualifies w ∧ strip w.word = t then some w else firstOccurrence t ws

lemma firstOccurrence_cons (t : String) (w : Word) (ws : List Word) :
    firstOccurrence t (w :: ws) =
      if qualifies w ∧ strip w.word = t then some w else firstOccurrence t ws := rfl

lemma lookupS_append_single {β : Type} :
    ∀ (l : List (String × β)) (k : String) (v : β) (t : String),
      lookupS (l ++ [(k, v)]) t =
        match lookupS l t with
        | some x => some x
        | none => if k = t then some v else none := by
  intro l
  induction l with
  | nil => intro k v t; simp [lookupS]
  | cons p rest ih =>
    intro k v t
    obtain ⟨k', v'⟩ := p
    by_cases hk : k' = t
    · simp [lookupS, hk]
    · simp only [List.cons_append, lookupS, if_neg hk]
      exact ih k v t

lemma collect_fold_lookup :
    ∀ (ws : List Word) (seen : List (String × Word)) (t : String),
      lookupS (ws.foldl collectStep seen) t =
        match lookupS seen t with
        | some w => some w
        | none => firstOccurrence t ws := by
  intro ws
  induction ws with
  | nil =>
    intro seen t
    simp only [List.foldl_nil, firstOccurrence]
    cases lookupS seen t <;> rfl
  | cons w ws ih =>
    intro seen t
    rw [List.foldl_cons, ih, firstOccurrence_cons]
    unfold collectStep
    by_cases hc : qualifies w ∧ lookupS seen (strip w.word) = none
    · rw [if_pos hc, lookupS_append_single]
      cases hseen : lookupS seen t with
      | some x => simp
      | none =>
        by_cases ht : strip w.word = t
        · simp only [if_pos ht]
          rw [if_pos ⟨hc.1, ht⟩]
        · simp only [if_neg ht]
          rw [if_neg (by tauto)]
    · rw [if_neg hc]
      cases hseen : lookupS seen t with
      | some x => simp
      | none =>
        simp only []
        rw [if_neg ?_]
        intro ⟨hq, ht⟩
        subst ht
        exact hc ⟨hq, hseen⟩

lemma collectUniqueWords_eq_fold (segments : List Segment) :
    collectUniqueWords segments = (docWords segments).foldl collectStep [] := by
  suffices h : ∀ (segs : List Segment) (seen : List (String × Word)),
      segs.foldl (fun seen seg => (seg.words.getD []).foldl collectStep seen) seen =
        ((segs.map (fun seg => seg.words.getD [])).flatten).foldl collectStep seen by
    exact h segments []
  intro segs
  induction segs with
  | nil => intro seen; rfl
  | cons s rest ih =>
    intro seen
    rw [List.foldl_cons, ih, List.map_cons, List.flatten_cons, List.foldl_append]

/-- C3 counterexample: the claim says qualification and distinctness use
the word text with no normalization, so the word " a " (text non-empty,
length 3 > 1, duration 1 ≥ 0.2s, first occurrence) must be kept; the code
strips the text to "a" first, which fails the length test, so the word is
dropped and the collection is empty. -/
theorem C3_counterexample :
    (Word.mk " a " 0 1 none).word ≠ "" ∧
    1 < (Word.mk " a " 0 1 none).word.length ∧
    (1/5 : ℚ) ≤ (Word.mk " a " 0 1 none).stop - (Word.mk " a " 0 1 none).start ∧
    collectUniqueWords [Segment.mk 0 1 " a " (some [Word.mk " a " 0 1 none])] = [] := by
  refine ⟨by decide, by decide, by norm_num, ?_⟩
  have hq : ¬ qualifies (Word.mk " a " 0 1 none) := by
    intro h
    have hlen := h.2.1
    have hstrip : strip (Word.mk " a " 0 1 none).word = "a" := by decide
    rw [hstrip] at hlen
    have h1 : ("a" : String).length = 1 := rfl
    omega
  calc collectUniqueWords [Segment.mk 0 1 " a " (some [Word.mk " a " 0 1 none])]
      = collectStep [] (Word.mk " a " 0 1 none) := rfl
    _ = [] := if_neg (fun h => hq h.1)

/-- C3 (amended): the Word Extractor iterates words in document order
(segment order, then word order within segment) and keeps exactly the
first occurrence of each distinct stripped word text, where the text is
first stripped of leading and trailing whitespace and distinctness is by
exact match of the stripped text; a word qualifies iff its stripped text
is non-empty, its stripped length is greater than 1 character, and its
duration (end - start) is at least 0.2 seconds; a word of duration
exactly 0.2s is kept and one of duration 0.199s is dropped. -/
theorem C3_first_occurrence_of_stripped_text (segments : List Segment) (t : String) :
    lookupS (collectUniqueWords segments) t = firstOccurrence t (docWords segments) ∧
    collectUniqueWords [Segment.mk 0 1 "hi" (some [Word.mk "hi" 0 (1/5) none])] =
      [("hi", Word.mk "hi" 0 (1/5) none)] ∧
    collectUniqueWords [Segment.mk 0 1 "hi" (some [Word.mk "hi" 0 (199/1000) none])] = [] := by
  refine ⟨?_, ?_, ?_⟩
  · rw [collectUniqueWords_eq_fold, collect_fold_lookup]
    rfl
  · have hq : qualifies (Word.mk "hi" 0 (1/5) none) := by
      refine ⟨by decide, by decide, by norm_num⟩
    have hs : strip (Word.mk "hi" 0 (1/5) none).word = "hi" := by decide
    calc collectUniqueWords [Segment.mk 0 1 "hi" (some [Word.mk "hi" 0 (1/5) none])]
        = collectStep [] (Word.mk "hi" 0 (1/5) none) := rfl
      _ = [] ++ [(strip (Word.mk "hi" 0 (1/5) none).word, Word.mk "hi" 0 (1/5) none)] :=
          if_pos ⟨hq, rfl⟩
      _ = [("hi", Word.mk "hi" 0 (1/5) none)] := by rw [List.nil_append, hs]
  · have hq : ¬ qualifies (Word.mk "hi" 0 (199/1000) none) := by
      intro h
      have hd := h.2.2
      norm_num at hd
    calc collectUniqueWords [Segment.mk 0 1 "hi" (some [Word.mk "hi" 0 (199/1000) none])]
        = collectStep [] (Word.mk "hi" 0 (199/1000) none) := rfl
      _ = [] := if_neg (fun h => hq h.1)

/- Timestamp rounding: the source applies Python round(x, 2) to every
   emitted timestamp.  Embedded over ℚ via the integer rounding of
   100·x (half-way cases differ from Python's float behaviour only in
   which neighbouring hundredth is chosen; both sides are hundredths). -/
def round2 (x : ℚ) : ℚ := (round (x * 100) : ℚ) / 100

/- The per-word offsetting of transcribe_chunks (lines 471-479). -/
def offsetWord (off : ℚ) (w : Word) : Word :=
  { word := w.word
    start := round2 (w.start + off)
    stop := round2 (w.stop + off)
    probability := w.probability }

/- The per-segment entry construction of transcribe_chunks (lines 464-480):
   the offset is added to start/end and every contained word, all rounded
   to 2 decimals; the "words" key is carried over only when present. -/
def offsetSegment (off : ℚ) (s : Segment) : Segment :=
  { start := round2 (s.start + off)
    stop := round2 (s.stop + off)
    text := s.text
    words := s.words.map (fun ws => ws.map (offsetWord off)) }

/- offset = chunk_index * chunk_seconds (line 446). -/
def chunkOffset (chunkSeconds i : ℕ) : ℚ := ((i * chunkSeconds : ℕ) : ℚ)

lemma round2_hundredths (x : ℚ) : ∃ k : ℤ, round2 x = (k : ℚ) / 100 :=
  ⟨round (x * 100), rfl⟩

lemma round2_exact (x : ℚ) (hx : (x * 100).den = 1) (m : ℤ) :
    round2 (x + (m : ℚ)) = x + (m : ℚ) := by
  have hnum : ((x * 100).num : ℚ) = x * 100 := by
    rw [← Rat.den_eq_one_iff]
    exact hx
  unfold round2
  have e : (x + (m : ℚ)) * 100 = ((x * 100).num + m * 100 : ℤ) := by
    push_cast
    rw [hnum]
    ring
  rw [e, round_intCast]
  push_cast
  rw [hnum]
  ring

/-- C5: for every successfully completed chunk with index i, every
Segment's start and end, and every contained Word's start and end, are
shifted by exactly + i * chunkLengthSeconds (then rounded to 2 decimal
places, so timestamps already at hundredth precision are shifted
exactly); every emitted timestamp is a whole number of hundredths; and a
Word with chunk-local start 2.00 in chunk index 3 with L = 30 appears
with global start 92.00. -/
theorem C5_reassembler_offsets (i L : ℕ) (s : Segment) (w : Word)
    (hs : (s.start * 100).den = 1) (hw : (w.start * 100).den = 1) :
    (offsetSegment (chunkOffset L i) s).start = round2 (s.start + (i * L : ℕ)) ∧
    (offsetSegment (chunkOffset L i) s).stop = round2 (s.stop + (i * L : ℕ)) ∧
    (offsetSegment (chunkOffset L i) s).text = s.text ∧
    (offsetSegment (chunkOffset L i) s).words =
      s.words.map (fun ws => ws.map (offsetWord (chunkOffset L i))) ∧
    (offsetWord (chunkOffset L i) w).start = round2 (w.start + (i * L : ℕ)) ∧
    (offsetSegment (chunkOffset L i) s).start = s.start + (i * L : ℕ) ∧
    (offsetWord (chunkOffset L i) w).start = w.start + (i * L : ℕ) ∧
    (∃ k : ℤ, (offsetSegment (chunkOffset L i) s).stop = (k : ℚ) / 100) ∧
    (offsetWord (chunkOffset 30 3) (Word.mk "w" 2 (5/2) none)).start = 92 := by
  have hoff : chunkOffset L i = ((i * L : ℕ) : ℤ) := by
    unfold chunkOffset
    push_cast
    ring
  refine ⟨rfl, rfl, rfl, rfl, rfl, ?_, ?_, round2_hundredths _, ?_⟩
  · show round2 (s.start + chunkOffset L i) = s.start + (i * L : ℕ)
    rw [hoff, round2_exact s.start hs]
    push_cast
    ring
  · show round2 (w.start + chunkOffset L i) = w.start + (i * L : ℕ)
    rw [hoff, round2_exact w.start hw]
    push_cast
    ring
  · show round2 (2 + chunkOffset 30 3) = 92
    have h2 : ((2 : ℚ) * 100).den = 1 := by norm_num
    have e : chunkOffset 30 3 = ((90 : ℤ) : ℚ) := by
      unfold chunkOffset
      norm_num
    rw [e, round2_exact 2 h2 90]
    norm_num

/-- C5 witness: concrete segment and word at hundredth precision, in
chunk 3 with 30-second chunks, shift exactly to global time. -/
theorem C5_witness :
    ((2 : ℚ) * 100).den = 1 ∧
    (offsetWord (chunkOffset 30 3) (Word.mk "w" 2 (5/2) none)).start = 92 := by
  have h2 : ((2 : ℚ) * 100).den = 1 := by
    have e : ((2 : ℚ) * 100) = ((200 : ℤ) : ℚ) := by norm_num
    rw [e, Rat.den_intCast]
  exact ⟨h2,
    (C5_reassembler_offsets 3 30 (Segment.mk 2 3 "t" none)
      (Word.mk "w" 2 (5/2) none) h2 h2).2.2.2.2.2.2.2.2⟩

/- The sort key of `all_segments.sort(key=lambda s: s["start"])`. -/
def segLE (a b : Segment) : Prop := a.start ≤ b.start

instance : DecidableRel segLE := fun a b => inferInstanceAs (Decidable (a.start ≤ b.start))

/- Python's list.sort is a stable sort by the key; insertion sort is the
   (unique) stable sort for a decidable total preorder, so it embeds it. -/
def sortSegments (l : List Segment) : List Segment := List.insertionSort segLE l

/- The Reassembler (line 540): the per-chunk segment lists, already
   offset to global time, arrive in an arbitrary completion order, are
   concatenated, and the concatenation is sorted by start. -/
def reassemble (chunkResults : List (List Segment)) : List Segment :=
  sortSegments chunkResults.flatten

/- The full transcript text (line 541 and process_video line 799):
   segment texts joined by a single space, in sorted order. -/
def fullText (l : List Segment) : String :=
  String.intercalate " " (l.map Segment.text)

def segLT (a b : Segment) : Prop := a.start < b.start

instance : IsTotal Segment segLE := ⟨fun a b => le_total a.start b.start⟩

instance : IsTrans Segment segLE := ⟨fun _ _ _ h h' => le_trans h h'⟩

instance : IsAntisymm Segment segLT := ⟨fun _ _ h h' => absurd h (lt_asymm h')⟩

lemma perm_flatten_of_perm {α : Type} {l₁ l₂ : List (List α)} (h : l₁.Perm l₂) :
    l₁.flatten.Perm l₂.flatten := by
  induction h with
  | nil => exact List.Perm.refl _
  | cons x _ ih => simpa using ih.append_left x
  | swap x y l =>
    have hcomm := (@List.perm_append_comm _ y x).append_right l.flatten
    simpa [List.append_assoc] using hcomm
  | trans _ _ ih1 ih2 => exact ih1.trans ih2

lemma sorted_lt_of_sorted_le_nodup (l : List Segment) (hs : l.Sorted segLE)
    (hn : (l.map Segment.start).Nodup) : l.Sorted segLT := by
  have hne : l.Pairwise (fun a b => a.start ≠ b.start) := List.pairwise_map.mp hn
  exact (hs.and hne).imp (fun h => lt_of_le_of_ne h.1 h.2)

lemma sorted_nodup_eq (l₁ l₂ : List Segment) (hp : l₁.Perm l₂)
    (hs₁ : l₁.Sorted segLE) (hs₂ : l₂.Sorted segLE)
    (hn : (l₁.map Segment.start).Nodup) : l₁ = l₂ := by
  have hn₂ : (l₂.map Segment.start).Nodup := (hp.map Segment.start).nodup_iff.mp hn
  exact List.eq_of_perm_of_sorted hp (sorted_lt_of_sorted_le_nodup l₁ hs₁ hn)
    (sorted_lt_of_sorted_le_nodup l₂ hs₂ hn₂)

/-- C6 counterexample: two chunk results with equal-start segments of
different texts; feeding them in the two orders yields different sorted
transcripts (the sort is stable, so the tie keeps arrival order), so
reassembly is not order-independent for every set of results as the
claim states. -/
theorem C6_counterexample :
    [[Segment.mk 30 31 "a" none], [Segment.mk 30 31 "b" none]].Perm
      [[Segment.mk 30 31 "b" none], [Segment.mk 30 31 "a" none]] ∧
    reassemble [[Segment.mk 30 31 "a" none], [Segment.mk 30 31 "b" none]] ≠
      reassemble [[Segment.mk 30 31 "b" none], [Segment.mk 30 31 "a" none]] := by
  constructor
  · exact List.Perm.swap _ _ _
  · have e1 : reassemble [[Segment.mk 30 31 "a" none], [Segment.mk 30 31 "b" none]] =
        [Segment.mk 30 31 "a" none, Segment.mk 30 31 "b" none] := by
      simp [reassemble, sortSegments, List.insertionSort, List.orderedInsert, segLE]
    have e2 : reassemble [[Segment.mk 30 31 "b" none], [Segment.mk 30 31 "a" none]] =
        [Segment.mk 30 31 "b" none, Segment.mk 30 31 "a" none] := by
      simp [reassemble, sortSegments, List.insertionSort, List.orderedInsert, segLE]
    rw [e1, e2]
    intro h
    injection h with h1 _
    injection h1 with _ _ htext _
    exact absurd htext (by decide)

/-- C6 (amended): whenever the merged segments have pairwise distinct
start times, reassembly is order-independent: feeding the same per-chunk
results to the Reassembler in any permutation yields an identical final
sorted transcript, and hence an identical space-joined full text.  (With
ties on start the stable sort keeps arrival order, so equal-start
segments may appear in either relative order.) -/
theorem C6_reassembly_order_independent (rs rs' : List (List Segment))
    (hperm : rs.Perm rs') (hnodup : (rs.flatten.map Segment.start).Nodup) :
    reassemble rs = reassemble rs' ∧
    fullText (reassemble rs) = fullText (reassemble rs') := by
  have hj : rs.flatten.Perm rs'.flatten := perm_flatten_of_perm hperm
  have h1 : (reassemble rs).Perm (reassemble rs') :=
    ((List.perm_insertionSort segLE rs.flatten).trans hj).trans
      (List.perm_insertionSort segLE rs'.flatten).symm
  have hs1 : (reassemble rs).Sorted segLE := List.sorted_insertionSort segLE _
  have hs2 : (reassemble rs').Sorted segLE := List.sorted_insertionSort segLE _
  have hn1 : ((reassemble rs).map Segment.start).Nodup :=
    ((List.perm_insertionSort segLE rs.flatten).map Segment.start).nodup_iff.mpr hnodup
  have heq : reassemble rs = reassemble rs' := sorted_nodup_eq _ _ h1 hs1 hs2 hn1
  exact ⟨heq, by rw [heq]⟩

/-- C6 witness: two chunk results with distinct starts reassemble to the
same transcript in either arrival order. -/
theorem C6_witness :
    [[Segment.mk 0 1 "a" none], [Segment.mk 2 3 "b" none]].Perm
      [[Segment.mk 2 3 "b" none], [Segment.mk 0 1 "a" none]] ∧
    reassemble [[Segment.mk 0 1 "a" none], [Segment.mk 2 3 "b" none]] =
      reassemble [[Segment.mk 2 3 "b" none], [Segment.mk 0 1 "a" none]] :=
  ⟨List.Perm.swap _ _ _,
    (C6_reassembly_order_independent
      [[Segment.mk 0 1 "a" none], [Segment.mk 2 3 "b" none]]
      [[Segment.mk 2 3 "b" none], [Segment.mk 0 1 "a" none]]
      (List.Perm.swap _ _ _) (by decide)).1⟩

/- The RunPod status payload as consumed by _process_result:
   `failed` embeds `status == "FAILED"`, `handlerError` embeds
   `"error" in output`, `segments` embeds `output.get("segments", [])`. -/
structure RunpodResult where
  failed : Bool
  handlerError : Bool
  segments : List Segment
deriving DecidableEq, Repr

/- _process_result from transcribe_chunks (lines 424-436): None marks the
   chunk failed, otherwise its segment list is returned. -/
def processResult (r : RunpodResult) : Option (List Segment) :=
  if r.failed then none
  else if r.handlerError then none
  else some r.segments

/- The resolution of one polling future: `poll i` is the outcome of
   _poll_runpod_job for chunk i — `Except.error` embeds an exception
   (TimeoutError after 300 s, or any request error), `Except.ok` the
   returned status dict.  A chunk resolves to its segments only when
   polling returned and _process_result accepted the payload. -/
def pollResolve (poll : ℕ → Except String RunpodResult) (i : ℕ) :
    Option (List Segment) :=
  match poll i with
  | Except.error _ => none
  | Except.ok r => processResult r

/- Phase 1 (lines 401-408): chunks are submitted eagerly and
   sequentially; `submitOk i` tells whether _submit_runpod_job for chunk
   i succeeded.  A chunk whose submission raises is only logged: it is
   skipped from the job list. -/
def submittedJobs (n : ℕ) (submitOk : ℕ → Bool) : List ℕ :=
  (List.range n).filter submitOk

/- The segments a pass contributes: for every job whose poll resolved,
   the chunk-local segments offset by chunkIndex * chunk_seconds.
   (as_completed yields futures in completion order; the model collects
   them in index order — the final sort makes the order immaterial except
   for equal-start ties, treated with C6.) -/
def passSegments (chunkSeconds : ℕ) (poll : ℕ → Except String RunpodResult)
    (jobs : List ℕ) : List Segment :=
  (jobs.filterMap (fun i =>
    (pollResolve poll i).map (fun segs =>
      segs.map (offsetSegment (chunkOffset chunkSeconds i))))).flatten

/- The failed_chunks list (lines 450-461): exactly the polled jobs whose
   outcome was an exception/timeout, a FAILED status, or a handler error. -/
def passFailed (poll : ℕ → Except String RunpodResult) (jobs : List ℕ) : List ℕ :=
  jobs.filter (fun i => (pollResolve poll i).isNone)

/- transcribe_chunks (lines 378-544).  `credsSet` embeds the presence of
   RUNPOD_ENDPOINT_ID and RUNPOD_API_KEY; submit1/poll1 are the
   first-pass collaborator outcomes, submit2/poll2 the retry-pass ones.
   `Except.error` embeds the RuntimeError raise. -/
def transcribe_chunks (n chunkSeconds : ℕ) (credsSet : Bool)
    (submit1 : ℕ → Bool) (poll1 : ℕ → Except String RunpodResult)
    (submit2 : ℕ → Bool) (poll2 : ℕ → Except String RunpodResult) :
    Except String (List Segment) :=
  if ¬ credsSet then
    Except.error "RUNPOD_ENDPOINT_ID and RUNPOD_API_KEY must be set"
  else
    let jobs := submittedJobs n submit1
    if jobs = [] then Except.ok []
    else
      let firstSegs := passSegments chunkSeconds poll1 jobs
      let failedChunks := passFailed poll1 jobs
      let retryJobs := failedChunks.filter submit2
      let retrySegs := passSegments chunkSeconds poll2 retryJobs
      Except.ok (sortSegments (firstSegs ++ retrySegs))

/-- C1 counterexample: a single chunk whose first-pass submission fails
(submit1 always False) is not recorded in the failed-chunk list — the
list collected for the retry round is empty — and transcribe_chunks
returns an empty transcript without ever resubmitting it, even though a
retry submission and poll would have succeeded. -/
theorem C1_counterexample :
    (fun _ : ℕ => false) 0 = false ∧ 0 < 1 ∧
    passFailed (fun _ => Except.ok (RunpodResult.mk false false []))
      (submittedJobs 1 (fun _ => false)) = [] ∧
    transcribe_chunks 1 30 true (fun _ => false)
      (fun _ => Except.ok (RunpodResult.mk false false []))
      (fun _ => true)
      (fun _ => Except.ok (RunpodResult.mk false false [Segment.mk 0 1 "hi" none])) =
      Except.ok [] := by
  refine ⟨rfl, by decide, rfl, ?_⟩
  rfl

/-- C1 (amended): the failed-chunk set collected for the single retry
round contains exactly the chunks that were submitted successfully and
whose polling did not produce a usable result (backend failure, handler
error, timeout or other polling exception); a chunk whose first-pass
submission fails is never recorded in that set, so it is dropped without
being resubmitted. -/
theorem C1_failed_set_is_polled_failures (n : ℕ) (submit1 : ℕ → Bool)
    (poll1 : ℕ → Except String RunpodResult) (i : ℕ) :
    passFailed poll1 (submittedJobs n submit1) =
      (List.range n).filter (fun j => submit1 j && (pollResolve poll1 j).isNone) ∧
    (submit1 i = false → i ∉ passFailed poll1 (submittedJobs n submit1)) ∧
    (∀ submit2 : ℕ → Bool, submit1 i = false →
      i ∉ (passFailed poll1 (submittedJobs n submit1)).filter submit2) := by
  have hnot : submit1 i = false → i ∉ passFailed poll1 (submittedJobs n submit1) := by
    intro hs hmem
    unfold passFailed submittedJobs at hmem
    have h1 : i ∈ (List.range n).filter submit1 := List.mem_of_mem_filter hmem
    have h2 : submit1 i = true := List.of_mem_filter h1
    rw [hs] at h2
    exact Bool.false_ne_true h2
  refine ⟨?_, hnot, ?_⟩
  · unfold passFailed submittedJobs
    rw [List.filter_filter]
    exact List.filter_congr (fun a _ => by rw [Bool.and_comm])
  · intro submit2 hs hmem
    exact hnot hs (List.mem_of_mem_filter hmem)

/-- C1 amended-claim witness: a chunk with failed submission is outside
the concrete failed set. -/
theorem C1_witness :
    (fun _ : ℕ => false) 0 = false ∧
    0 ∉ passFailed (fun _ => Except.ok (RunpodResult.mk false false []))
      (submittedJobs 1 (fun _ => false)) :=
  ⟨rfl, (C1_failed_set_is_polled_failures 1 (fun _ => false)
    (fun _ => Except.ok (RunpodResult.mk false false [])) 0).2.1 rfl⟩

/-- C2 counterexample: with credentials set and every chunk's submission
failing, transcribe_chunks returns a successful empty result — the run
completes with an empty transcript — rather than failing as the claim
states. -/
theorem C2_counterexample :
    transcribe_chunks 2 30 true (fun _ => false)
      (fun _ => Except.ok (RunpodResult.mk false false []))
      (fun _ => false)
      (fun _ => Except.ok (RunpodResult.mk false false [])) = Except.ok [] ∧
    (transcribe_chunks 2 30 true (fun _ => false)
      (fun _ => Except.ok (RunpodResult.mk false false []))
      (fun _ => false)
      (fun _ => Except.ok (RunpodResult.mk false false []))).isOk = true := by
  constructor
  · rfl
  · rfl

/-- C2 (amended): transcribe_chunks never fails because chunks failed:
with the RunPod credentials set it always returns a (possibly empty)
segment list; in particular when every chunk's submission fails it
returns the empty list, so the run completes with an empty transcript
rather than failing.  It raises only when the credentials are unset
(errors of the earlier non-chunk-scoped steps — acquisition, chunking,
upload — propagate separately in process_video, before transcription). -/
theorem C2_run_never_fails_on_chunk_failures (n chunkSeconds : ℕ)
    (submit1 : ℕ → Bool) (poll1 : ℕ → Except String RunpodResult)
    (submit2 : ℕ → Bool) (poll2 : ℕ → Except String RunpodResult) :
    (∃ segs : List Segment,
      transcribe_chunks n chunkSeconds true submit1 poll1 submit2 poll2 =
        Except.ok segs) ∧
    (submittedJobs n submit1 = [] →
      transcribe_chunks n chunkSeconds true submit1 poll1 submit2 poll2 =
        Except.ok []) ∧
    transcribe_chunks n chunkSeconds false submit1 poll1 submit2 poll2 =
      Except.error "RUNPOD_ENDPOINT_ID and RUNPOD_API_KEY must be set" := by
  refine ⟨?_, ?_, rfl⟩
  · unfold transcribe_chunks
    rw [if_neg (by simp)]
    by_cases hjobs : submittedJobs n submit1 = []
    · rw [if_pos hjobs]
      exact ⟨[], rfl⟩
    · rw [if_neg hjobs]
      exact ⟨_, rfl⟩
  · intro hjobs
    unfold transcribe_chunks
    rw [if_neg (by simp), if_pos hjobs]

/-- C2 amended-claim witness: with all submissions failing, the concrete
run returns the empty transcript. -/
theorem C2_witness :
    submittedJobs 2 (fun _ => false) = [] ∧
    transcribe_chunks 2 30 true (fun _ => false)
      (fun _ => Except.ok (RunpodResult.mk false false []))
      (fun _ => false)
      (fun _ => Except.ok (RunpodResult.mk false false [])) = Except.ok [] :=
  ⟨rfl, (C2_run_never_fails_on_chunk_failures 2 30 (fun _ => false)
    (fun _ => Except.ok (RunpodResult.mk false false []))
    (fun _ => false)
    (fun _ => Except.ok (RunpodResult.mk false false []))).2.1 rfl⟩

/- Python's int() conversion of a float: truncation toward zero. -/
def truncQ (x : ℚ) : ℤ := if 0 ≤ x then ⌊x⌋ else ⌈x⌉

/- Length in ms of the pydub slice audio[a:b] of a chunk of lenMs ms,
   for non-negative indices (out-of-range indices are clamped; the
   negative-index wrap of Python slicing is outside every claim). -/
def sliceLen (lenMs : ℕ) (a b : ℤ) : ℕ :=
  (min b (lenMs : ℤ) - min a (lenMs : ℤ)).toNat

/- The per-word quantities computed by the clip loop of
   clip_and_upload_words (lines 670-686). -/
structure WordClipInfo where
  chunkIdx : ℤ
  localStart : ℚ
  localEnd : ℚ
  msStart : ℤ
  msEnd : ℤ
  clipMs : ℕ
  padded : Bool
  finalMs : ℕ
deriving DecidableEq, Repr

/- One iteration of the clip loop:
   chunk_idx = min(int(w["start"] // chunk_seconds), len(chunk_paths)-1);
   local_start/local_end subtract chunk_idx * chunk_seconds;
   the pydub slice is audio[int(local_start*1000) : int(local_end*1000)];
   a clip shorter than 300 ms gets 50 ms of silence on each side. -/
def clipWord (chunkSeconds numChunks chunkLenMs : ℕ) (w : Word) : WordClipInfo :=
  let chunkIdx : ℤ := min ⌊w.start / (chunkSeconds : ℚ)⌋ ((numChunks : ℤ) - 1)
  let localStart : ℚ := w.start - (chunkIdx : ℚ) * (chunkSeconds : ℚ)
  let localEnd : ℚ := w.stop - (chunkIdx : ℚ) * (chunkSeconds : ℚ)
  let msStart : ℤ := truncQ (localStart * 1000)
  let msEnd : ℤ := truncQ (localEnd * 1000)
  let clipMs : ℕ := sliceLen chunkLenMs msStart msEnd
  { chunkIdx := chunkIdx
    localStart := localStart
    localEnd := localEnd
    msStart := msStart
    msEnd := msEnd
    clipMs := clipMs
    padded := decide (clipMs < 300)
    finalMs := if clipMs < 300 then 50 + clipMs + 50 else clipMs }

/-- C7: for every kept word, the source chunk index is
floor(word.start / chunkLengthSeconds) clamped to the last valid chunk
index (and indeed lands in [0, numChunks)); the chunk-local offsets are
localStart = word.start - chunkIndex * chunkLength and localEnd =
word.end - chunkIndex * chunkLength; the chunk audio is sliced at
[localStart, localEnd] (at millisecond resolution); and a clip shorter
than 300 ms is padded with 50 ms of silence on both sides, one of at
least 300 ms is not. -/
theorem C7_word_clip_localization (chunkSeconds numChunks chunkLenMs : ℕ) (w : Word)
    (hn : 1 ≤ numChunks) (hL : 0 < chunkSeconds) (hw : 0 ≤ w.start) :
    (clipWord chunkSeconds numChunks chunkLenMs w).chunkIdx =
      min ⌊w.start / (chunkSeconds : ℚ)⌋ ((numChunks : ℤ) - 1) ∧
    (clipWord chunkSeconds numChunks chunkLenMs w).localStart =
      w.start - ((clipWord chunkSeconds numChunks chunkLenMs w).chunkIdx : ℚ) *
        (chunkSeconds : ℚ) ∧
    (clipWord chunkSeconds numChunks chunkLenMs w).localEnd =
      w.stop - ((clipWord chunkSeconds numChunks chunkLenMs w).chunkIdx : ℚ) *
        (chunkSeconds : ℚ) ∧
    (clipWord chunkSeconds numChunks chunkLenMs w).msStart =
      truncQ ((clipWord chunkSeconds numChunks chunkLenMs w).localStart * 1000) ∧
    (clipWord chunkSeconds numChunks chunkLenMs w).msEnd =
      truncQ ((clipWord chunkSeconds numChunks chunkLenMs w).localEnd * 1000) ∧
    (clipWord chunkSeconds numChunks chunkLenMs w).clipMs =
      sliceLen chunkLenMs (clipWord chunkSeconds numChunks chunkLenMs w).msStart
        (clipWord chunkSeconds numChunks chunkLenMs w).msEnd ∧
    ((clipWord chunkSeconds numChunks chunkLenMs w).clipMs < 300 →
      (clipWord chunkSeconds numChunks chunkLenMs w).padded = true ∧
      (clipWord chunkSeconds numChunks chunkLenMs w).finalMs =
        (clipWord chunkSeconds numChunks chunkLenMs w).clipMs + 100) ∧
    (300 ≤ (clipWord chunkSeconds numChunks chunkLenMs w).clipMs →
      (clipWord chunkSeconds numChunks chunkLenMs w).padded = false ∧
      (clipWord chunkSeconds numChunks chunkLenMs w).finalMs =
        (clipWord chunkSeconds numChunks chunkLenMs w).clipMs) ∧
    0 ≤ (clipWord chunkSeconds numChunks chunkLenMs w).chunkIdx ∧
    (clipWord chunkSeconds numChunks chunkLenMs w).chunkIdx < (numChunks : ℤ) := by
  have hpad : (clipWord chunkSeconds numChunks chunkLenMs w).padded =
      decide ((clipWord chunkSeconds numChunks chunkLenMs w).clipMs < 300) := rfl
  have hfin : (clipWord chunkSeconds numChunks chunkLenMs w).finalMs =
      if (clipWord chunkSeconds numChunks chunkLenMs w).clipMs < 300 then
        50 + (clipWord chunkSeconds numChunks chunkLenMs w).clipMs + 50
      else (clipWord chunkSeconds numChunks chunkLenMs w).clipMs := rfl
  refine ⟨rfl, rfl, rfl, rfl, rfl, rfl, ?_, ?_, ?_, ?_⟩
  · intro h
    constructor
    · rw [hpad]
      simpa using h
    · rw [hfin, if_pos h]
      omega
  · intro h
    constructor
    · rw [hpad]
      simp
      omega
    · rw [hfin, if_neg (by omega)]
  · show (0 : ℤ) ≤ min ⌊w.start / (chunkSeconds : ℚ)⌋ ((numChunks : ℤ) - 1)
    apply le_min
    · apply Int.floor_nonneg.mpr
      apply div_nonneg hw
      positivity
    · omega
  · show min ⌊w.start / (chunkSeconds : ℚ)⌋ ((numChunks : ℤ) - 1) < (numChunks : ℤ)
    calc min ⌊w.start / (chunkSeconds : ℚ)⌋ ((numChunks : ℤ) - 1)
        ≤ (numChunks : ℤ) - 1 := min_le_right _ _
      _ < (numChunks : ℤ) := by omega

/-- C7 witness: a word at global start 92 s, end 92.25 s, with 30-second
chunks and 2 chunks on disk, is clamped to chunk index 1 (floor(92/30)=3
clamped to the last valid index). -/
theorem C7_witness :
    (1 ≤ 2 ∧ 0 < 30 ∧ (0 : ℚ) ≤ (Word.mk "w" 92 (369/4) none).start) ∧
    (clipWord 30 2 30000 (Word.mk "w" 92 (369/4) none)).chunkIdx =
      min ⌊(Word.mk "w" 92 (369/4) none).start / ((30 : ℕ) : ℚ)⌋ (((2 : ℕ) : ℤ) - 1) :=
  ⟨⟨by decide, by decide, by norm_num⟩,
    (C7_word_clip_localization 30 2 30000 (Word.mk "w" 92 (369/4) none)
      (by decide) (by decide) (by norm_num)).1⟩

/- Python str.startswith(p), at character level. -/
def pyStartsWith (s p : String) : Bool := p.data.isPrefixOf s.data

/- The R2 key built for a word clip (line 693):
   "words/{video_id}/{clip_hash}.wav".  The sha256-derived clip_hash of
   line 689 (of "{text}:{start}") is an external computation, embedded as
   the parameter clipHash applied to the text and the start time. -/
def r2KeyFor (videoId : String) (clipHash : String → ℚ → String)
    (t : String) (w : Word) : String :=
  "words/" ++ videoId ++ "/" ++ clipHash t w.start ++ ".wav"

/- The update loop of lines 716-723: find the first dict entry whose
   value is the uploaded r2_key and replace that value with the full URL
   (the inner for-loop breaks after the first match). -/
def updateFirst : List (String × String) → String → String → List (String × String)
  | [], _, _ => []
  | (t, v) :: rest, key, url =>
    if v = key then (t, url) :: rest else (t, v) :: updateFirst rest key url

/- Processing of all upload results in task order (executor.map preserves
   the order of clip_tasks): a successful upload rewrites the matching
   entry, a failed one (None) leaves the dict unchanged. -/
def applyUploads (m : List (String × String))
    (rs : List (String × Option String)) : List (String × String) :=
  rs.foldl (fun acc kr =>
    match kr.2 with
    | some url => updateFirst acc kr.1 url
    | none => acc) m

/- The words surviving the clip loop: `clipOk t` embeds whether the
   try-block of lines 671-695 completed for the word with stripped text
   t (an exception there drops the word from both the task list and the
   dict). -/
def clippedWords (clipOk : String → Bool) (seen : List (String × Word)) :
    List (String × Word) :=
  seen.filter (fun p => clipOk p.1)

/- The word_clips dict right after the clip loop: text ↦ r2_key. -/
def wordClipsInit (videoId : String) (clipHash : String → ℚ → String)
    (clipOk : String → Bool) (seen : List (String × Word)) : List (String × String) :=
  (clippedWords clipOk seen).map (fun p => (p.1, r2KeyFor videoId clipHash p.1 p.2))

/- clip_and_upload_words, upload phase (lines 700-729): upload each clip
   (uploadRes gives the full URL on success, none on failure), write
   successful URLs back into the dict, and keep only entries whose value
   starts with "http" (the failed ones still hold their r2_key). -/
def clip_and_upload_words (videoId : String) (clipHash : String → ℚ → String)
    (clipOk : String → Bool) (uploadRes : String → Option String)
    (seen : List (String × Word)) : List (String × String) :=
  let wordClips := wordClipsInit videoId clipHash clipOk seen
  let results := wordClips.map (fun p => (p.2, uploadRes p.2))
  (applyUploads wordClips results).filter (fun p => pyStartsWith p.2 "http")

/- The net effect of the upload-result list on one dict value. -/
def applyRs : List (String × Option String) → String → String
  | [], v => v
  | (k, r) :: rest, v =>
    if k = v then (match r with | some u => u | none => v) else applyRs rest v

/- Occurrences of a given string in a list. -/
def countEq (k : String) (l : List String) : ℕ := l.countP (fun v => decide (v = k))

lemma countEq_cons (k v : String) (l : List String) :
    countEq k (v :: l) = countEq k l + if v = k then 1 else 0 := by
  simp [countEq, List.countP_cons]

lemma countEq_le_one_of_nodup (l : List String) (hl : l.Nodup) (k : String) :
    countEq k l ≤ 1 := by
  induction l with
  | nil => exact Nat.zero_le 1
  | cons v rest ih =>
    rw [List.nodup_cons] at hl
    rw [countEq_cons]
    by_cases hv : v = k
    · have hz : countEq k rest = 0 := by
        apply List.countP_eq_zero.mpr
        intro a ha
        simp only [decide_eq_true_eq]
        intro hak
        rw [hak, ← hv] at ha
        exact hl.1 ha
      rw [hz, if_pos hv]
    · rw [if_neg hv]
      have := ih hl.2
      omega

lemma ne_of_countEq_zero {k : String} {l : List String} (h : countEq k l = 0)
    {v : String} (hv : v ∈ l) : v ≠ k := by
  intro hvk
  have := List.countP_eq_zero.mp h v hv
  simp only [decide_eq_true_eq] at this
  exact this hvk

lemma lookupS_mem_snd {β : Type} {m : List (String × β)} {t : String} {v : β}
    (h : lookupS m t = some v) : v ∈ m.map Prod.snd :=
  List.mem_map.mpr ⟨(t, v), lookupS_mem m t v h, rfl⟩

lemma applyRs_not_mem :
    ∀ (rs : List (String × Option String)) (v : String),
      v ∉ rs.map Prod.fst → applyRs rs v = v := by
  intro rs
  induction rs with
  | nil => intro v _; rfl
  | cons kr rest ih =>
    intro v hv
    obtain ⟨k, r⟩ := kr
    rw [List.map_cons, List.mem_cons] at hv
    push_neg at hv
    show (if k = v then _ else applyRs rest v) = v
    rw [if_neg (fun h => hv.1 h.symm)]
    exact ih v hv.2

lemma applyRs_http (rs : List (String × Option String)) (v : String)
    (hv : pyStartsWith v "http" = true)
    (hk : ∀ k ∈ rs.map Prod.fst, pyStartsWith k "http" = false) :
    applyRs rs v = v := by
  apply applyRs_not_mem
  intro hmem
  have hcontra := hk v hmem
  rw [hv] at hcontra
  exact absurd hcontra (by simp)

lemma lookupS_eq_none_of_not_mem {β : Type} {m : List (String × β)} {t : String}
    (h : t ∉ m.map Prod.fst) : lookupS m t = none := by
  cases hl : lookupS m t with
  | none => rfl
  | some v =>
    exact absurd (List.mem_map.mpr ⟨(t, v), lookupS_mem m t v hl, rfl⟩) h

lemma updateFirst_map_fst :
    ∀ (m : List (String × String)) (k u : String),
      (updateFirst m k u).map Prod.fst = m.map Prod.fst := by
  intro m
  induction m with
  | nil => intro k u; rfl
  | cons p rest ih =>
    intro k u
    obtain ⟨t, v⟩ := p
    show (if v = k then (t, u) :: rest else (t, v) :: updateFirst rest k u).map Prod.fst = _
    by_cases hv : v = k
    · rw [if_pos hv]
      rfl
    · rw [if_neg hv, List.map_cons, List.map_cons, ih]

lemma applyUploads_map_fst :
    ∀ (rs : List (String × Option String)) (m : List (String × String)),
      (applyUploads m rs).map Prod.fst = m.map Prod.fst := by
  intro rs
  induction rs with
  | nil => intro m; rfl
  | cons kr rest ih =>
    intro m
    obtain ⟨k, r⟩ := kr
    cases r with
    | none => exact ih m
    | some u =>
      show (applyUploads (updateFirst m k u) rest).map Prod.fst = _
      rw [ih (updateFirst m k u), updateFirst_map_fst]

lemma lookupS_updateFirst :
    ∀ (m : List (String × String)) (k u t : String),
      countEq k (m.map Prod.snd) ≤ 1 →
      lookupS (updateFirst m k u) t =
        (lookupS m t).map (fun v => if v = k then u else v) := by
  intro m
  induction m with
  | nil => intro k u t _; rfl
  | cons p rest ih =>
    intro k u t hcnt
    obtain ⟨t₀, v₀⟩ := p
    rw [List.map_cons, countEq_cons] at hcnt
    by_cases hv : v₀ = k
    · show lookupS (if v₀ = k then (t₀, u) :: rest else (t₀, v₀) :: updateFirst rest k u) t = _
      rw [if_pos hv]
      show (if t₀ = t then some u else lookupS rest t) =
        ((if t₀ = t then some v₀ else lookupS rest t)).map (fun v => if v = k then u else v)
      by_cases ht : t₀ = t
      · rw [if_pos ht, if_pos ht, Option.map_some', if_pos hv]
      · rw [if_neg ht, if_neg ht]
        have hz : countEq k (rest.map Prod.snd) = 0 := by
          rw [if_pos hv] at hcnt
          omega
        cases hl : lookupS rest t with
        | none => rfl
        | some v =>
          have hvne : v ≠ k := ne_of_countEq_zero hz (lookupS_mem_snd hl)
          rw [Option.map_some', if_neg hvne]
    · show lookupS (if v₀ = k then (t₀, u) :: rest else (t₀, v₀) :: updateFirst rest k u) t = _
      rw [if_neg hv]
      show (if t₀ = t then some v₀ else lookupS (updateFirst rest k u) t) =
        ((if t₀ = t then some v₀ else lookupS rest t)).map (fun v => if v = k then u else v)
      by_cases ht : t₀ = t
      · rw [if_pos ht, if_pos ht, Option.map_some', if_neg hv]
      · rw [if_neg ht, if_neg ht]
        exact ih k u t (by omega)

lemma countEq_snd_updateFirst_le :
    ∀ (m : List (String × String)) (k u k' : String), k' ≠ u →
      countEq k' ((updateFirst m k u).map Prod.snd) ≤
        countEq k' (m.map Prod.snd) := by
  intro m
  induction m with
  | nil => intro k u k' _; exact le_rfl
  | cons p rest ih =>
    intro k u k' hne
    obtain ⟨t₀, v₀⟩ := p
    show countEq k' ((if v₀ = k then (t₀, u) :: rest
        else (t₀, v₀) :: updateFirst rest k u).map Prod.snd) ≤ _
    by_cases hv : v₀ = k
    · rw [if_pos hv, List.map_cons, List.map_cons, countEq_cons, countEq_cons]
      have hu : ¬ u = k' := fun h => hne h.symm
      rw [if_neg hu]
      by_cases hvk : v₀ = k'
      · rw [if_pos hvk]; omega
      · rw [if_neg hvk]
    · rw [if_neg hv, List.map_cons, List.map_cons, countEq_cons, countEq_cons]
      have := ih k u k' hne
      omega

lemma lookupS_filter_snd (Q : String → Bool) :
    ∀ (m : List (String × String)) (t : String), (m.map Prod.fst).Nodup →
      lookupS (m.filter (fun p => Q p.2)) t =
        match lookupS m t with
        | some v => if Q v then some v else none
        | none => none := by
  intro m
  induction m with
  | nil => intro t _; rfl
  | cons p rest ih =>
    intro t hnd
    obtain ⟨t₀, v₀⟩ := p
    rw [List.map_cons, List.nodup_cons] at hnd
    rw [List.filter_cons]
    by_cases hQ : Q v₀
    · rw [if_pos (by simpa using hQ)]
      show (if t₀ = t then some v₀ else lookupS (rest.filter (fun p => Q p.2)) t) = _
      by_cases ht : t₀ = t
      · rw [if_pos ht]
        show _ = (match (if t₀ = t then some v₀ else lookupS rest t) with
          | some v => if Q v then some v else none
          | none => none)
        rw [if_pos ht]
        simp [hQ]
      · rw [if_neg ht]
        rw [ih t hnd.2]
        show _ = (match (if t₀ = t then some v₀ else lookupS rest t) with
          | some v => if Q v then some v else none
          | none => none)
        rw [if_neg ht]
    · rw [if_neg (by simpa using hQ)]
      by_cases ht : t₀ = t
      · have hnone : lookupS (rest.filter (fun p => Q p.2)) t = none := by
          apply lookupS_eq_none_of_not_mem
          intro hmem
          apply hnd.1
          rw [← ht] at hmem
          exact ((rest.filter_sublist).map Prod.fst).subset hmem
        rw [hnone]
        show _ = (match (if t₀ = t then some v₀ else lookupS rest t) with
          | some v => if Q v then some v else none
          | none => none)
        rw [if_pos ht]
        simp [hQ]
      · rw [ih t hnd.2]
        show _ = (match (if t₀ = t then some v₀ else lookupS rest t) with
          | some v => if Q v then some v else none
          | none => none)
        rw [if_neg ht]

lemma lookupS_map_keyed (f : String → Word → String) :
    ∀ (l : List (String × Word)) (t : String),
      lookupS (l.map (fun p => (p.1, f p.1 p.2))) t = (lookupS l t).map (f t) := by
  intro l
  induction l with
  | nil => intro t; rfl
  | cons p rest ih =>
    intro t
    obtain ⟨t₀, w₀⟩ := p
    show (if t₀ = t then some (f t₀ w₀) else _) =
      ((if t₀ = t then some w₀ else lookupS rest t)).map (f t)
    by_cases ht : t₀ = t
    · rw [if_pos ht, if_pos ht, Option.map_some', ht]
    · rw [if_neg ht, if_neg ht]
      exact ih t

lemma applyRs_keyed (uploadRes : String → Option String) :
    ∀ (keys : List String) (k : String), k ∈ keys →
      applyRs (keys.map (fun q => (q, uploadRes q))) k =
        match uploadRes k with
        | some u => u
        | none => k := by
  intro keys
  induction keys with
  | nil => intro k hk; exact absurd hk (List.not_mem_nil k)
  | cons k₀ rest ih =>
    intro k hk
    rw [List.map_cons]
    simp only [applyRs]
    by_cases h : k₀ = k
    · rw [if_pos h, h]
    · rw [if_neg h]
      exact ih k (by
        rcases List.mem_cons.mp hk with h' | h'
        · exact absurd h'.symm h
        · exact h')

lemma applyUploads_lookup :
    ∀ (rs : List (String × Option String)) (m : List (String × String)) (t : String),
      (rs.map Prod.fst).Nodup →
      (∀ k ∈ rs.map Prod.fst, countEq k (m.map Prod.snd) ≤ 1) →
      (∀ p ∈ rs, ∀ u : String, p.2 = some u → pyStartsWith u "http" = true) →
      (∀ k ∈ rs.map Prod.fst, pyStartsWith k "http" = false) →
      lookupS (applyUploads m rs) t = (lookupS m t).map (applyRs rs) := by
  intro rs
  induction rs with
  | nil =>
    intro m t _ _ _ _
    show lookupS m t = (lookupS m t).map (applyRs [])
    cases lookupS m t <;> rfl
  | cons kr rest ih =>
    intro m t hnd hcnt hhttp hpre
    obtain ⟨k, r⟩ := kr
    rw [List.map_cons, List.nodup_cons] at hnd
    cases r with
    | none =>
      show lookupS (applyUploads m rest) t = _
      rw [ih m t hnd.2 (fun k' hk' => hcnt k' (List.mem_cons_of_mem _ hk'))
        (fun p hp => hhttp p (List.mem_cons_of_mem _ hp))
        (fun k' hk' => hpre k' (List.mem_cons_of_mem _ hk'))]
      cases hl : lookupS m t with
      | none => rfl
      | some v =>
        rw [Option.map_some', Option.map_some']
        show some (applyRs rest v) = some (if k = v then v else applyRs rest v)
        by_cases hkv : k = v
        · rw [if_pos hkv, applyRs_not_mem rest v (by rw [← hkv]; exact hnd.1)]
        · rw [if_neg hkv]
    | some u =>
      have hu : pyStartsWith u "http" = true :=
        hhttp (k, some u) (List.mem_cons_self _ _) u rfl
      show lookupS (applyUploads (updateFirst m k u) rest) t = _
      have hrestpre : ∀ k' ∈ rest.map Prod.fst, pyStartsWith k' "http" = false :=
        fun k' hk' => hpre k' (List.mem_cons_of_mem _ hk')
      have hrestcnt : ∀ k' ∈ rest.map Prod.fst,
          countEq k' ((updateFirst m k u).map Prod.snd) ≤ 1 := by
        intro k' hk'
        have hne : k' ≠ u := by
          intro h
          have h1 := hrestpre k' hk'
          rw [h, hu] at h1
          exact absurd h1 (by simp)
        exact le_trans (countEq_snd_updateFirst_le m k u k' hne)
          (hcnt k' (List.mem_cons_of_mem _ hk'))
      rw [ih (updateFirst m k u) t hnd.2 hrestcnt
        (fun p hp => hhttp p (List.mem_cons_of_mem _ hp)) hrestpre]
      rw [lookupS_updateFirst m k u t (hcnt k (List.mem_cons_self _ _))]
      cases hl : lookupS m t with
      | none => rfl
      | some v =>
        rw [Option.map_some', Option.map_some', Option.map_some']
        show some (applyRs rest (if v = k then u else v)) =
          some (if k = v then u else applyRs rest v)
        by_cases hkv : v = k
        · rw [if_pos hkv, if_pos hkv.symm,
            applyRs_http rest u hu hrestpre]
        · rw [if_neg hkv, if_neg (fun h => hkv h.symm)]

lemma wordClipsInit_map_fst (videoId : String) (clipHash : String → ℚ → String)
    (clipOk : String → Bool) (seen : List (String × Word)) :
    (wordClipsInit videoId clipHash clipOk seen).map Prod.fst =
      (clippedWords clipOk seen).map Prod.fst := by
  unfold wordClipsInit
  rw [List.map_map]
  rfl

lemma clippedWords_fst_nodup (clipOk : String → Bool) (seen : List (String × Word))
    (hfst : (seen.map Prod.fst).Nodup) :
    ((clippedWords clipOk seen).map Prod.fst).Nodup :=
  hfst.sublist ((List.filter_sublist seen).map Prod.fst)

lemma key_mem_of_mem_keys (videoId : String) (clipHash : String → ℚ → String)
    (clipOk : String → Bool) (seen : List (String × Word)) (k : String)
    (hk : k ∈ (wordClipsInit videoId clipHash clipOk seen).map Prod.snd) :
    ∃ p ∈ clippedWords clipOk seen, k = r2KeyFor videoId clipHash p.1 p.2 := by
  obtain ⟨x, hx, hxk⟩ := List.mem_map.mp hk
  obtain ⟨p, hp, hpx⟩ := List.mem_map.mp hx
  refine ⟨p, hp, ?_⟩
  rw [← hxk, ← hpx]

/-- C8: every word clip whose upload to storage fails is dropped from the
result map entirely: looking any word text up in the output yields
exactly the upload outcome of its clip's key (the full URL on success,
absence on failure), so the map contains only successfully stored clips
and never a broken or placeholder reference, and the upload failure of
one clip does not affect any other clip's entry.  Hypotheses: word texts
are distinct (they come from first-occurrence deduplication), the
sha256-derived clip keys do not collide, successful uploads return an
"http..." URL (worker URL prefix), and clip keys ("words/...") do not
start with "http". -/
theorem C8_failed_uploads_dropped (videoId : String) (clipHash : String → ℚ → String)
    (clipOk : String → Bool) (uploadRes : String → Option String)
    (seen : List (String × Word)) (t : String)
    (hfst : (seen.map Prod.fst).Nodup)
    (hkeys : ((wordClipsInit videoId clipHash clipOk seen).map Prod.snd).Nodup)
    (hurl : ∀ p ∈ clippedWords clipOk seen,
      Option.all (fun u => pyStartsWith u "http")
        (uploadRes (r2KeyFor videoId clipHash p.1 p.2)) = true)
    (hpre : ∀ p ∈ clippedWords clipOk seen,
      pyStartsWith (r2KeyFor videoId clipHash p.1 p.2) "http" = false) :
    (lookupS (clip_and_upload_words videoId clipHash clipOk uploadRes seen) t =
      match lookupS (clippedWords clipOk seen) t with
      | some w => uploadRes (r2KeyFor videoId clipHash t w)
      | none => none) ∧
    (∀ p ∈ clip_and_upload_words videoId clipHash clipOk uploadRes seen,
      pyStartsWith p.2 "http" = true) := by
  constructor
  · show lookupS ((applyUploads (wordClipsInit videoId clipHash clipOk seen)
      ((wordClipsInit videoId clipHash clipOk seen).map
        (fun p => (p.2, uploadRes p.2)))).filter
          (fun p => pyStartsWith p.2 "http")) t = _
    have hresults : (wordClipsInit videoId clipHash clipOk seen).map
        (fun p => (p.2, uploadRes p.2)) =
        ((wordClipsInit videoId clipHash clipOk seen).map Prod.snd).map
          (fun q => (q, uploadRes q)) := by rw [List.map_map]; rfl
    have hresfst : (((wordClipsInit videoId clipHash clipOk seen).map Prod.snd).map
        (fun q => (q, uploadRes q))).map Prod.fst =
        (wordClipsInit videoId clipHash clipOk seen).map Prod.snd := by
      rw [List.map_map]
      exact List.map_id _
    have hupfst : ((applyUploads (wordClipsInit videoId clipHash clipOk seen)
        ((wordClipsInit videoId clipHash clipOk seen).map
          (fun p => (p.2, uploadRes p.2)))).map Prod.fst).Nodup := by
      rw [applyUploads_map_fst, wordClipsInit_map_fst]
      exact clippedWords_fst_nodup clipOk seen hfst
    rw [lookupS_filter_snd (fun v => pyStartsWith v "http") _ t hupfst]
    rw [hresults]
    rw [applyUploads_lookup _ _ t
      (by rw [hresfst]; exact hkeys)
      (by
        intro k hk
        rw [hresfst] at hk
        unfold wordClipsInit at hk ⊢
        exact countEq_le_one_of_nodup _ hkeys k)
      (by
        intro p hp u hpu
        obtain ⟨q, hq, hqp⟩ := List.mem_map.mp hp
        obtain ⟨pw, hpw, hpwk⟩ := key_mem_of_mem_keys videoId clipHash clipOk seen q hq
        have := hurl pw hpw
        rw [← hpwk] at this
        rw [← hqp] at hpu
        simp only at hpu
        rw [hpu] at this
        simpa using this)
      (by
        intro k hk
        rw [hresfst] at hk
        obtain ⟨pw, hpw, hpwk⟩ := key_mem_of_mem_keys videoId clipHash clipOk seen k hk
        rw [hpwk]
        exact hpre pw hpw)]
    have hlk : lookupS (wordClipsInit videoId clipHash clipOk seen) t =
        (lookupS (clippedWords clipOk seen) t).map (r2KeyFor videoId clipHash t) :=
      lookupS_map_keyed (r2KeyFor videoId clipHash) (clippedWords clipOk seen) t
    rw [hlk]
    cases hl : lookupS (clippedWords clipOk seen) t with
    | none => rfl
    | some w =>
      rw [Option.map_some', Option.map_some']
      have hkeymem : r2KeyFor videoId clipHash t w ∈
          (wordClipsInit videoId clipHash clipOk seen).map Prod.snd := by
        apply List.mem_map.mpr
        refine ⟨(t, r2KeyFor videoId clipHash t w), ?_, rfl⟩
        apply List.mem_map.mpr
        exact ⟨(t, w), lookupS_mem _ _ _ hl, rfl⟩
      rw [applyRs_keyed uploadRes _ _ hkeymem]
      have hwmem : (t, w) ∈ clippedWords clipOk seen := lookupS_mem _ _ _ hl
      cases hu : uploadRes (r2KeyFor videoId clipHash t w) with
      | none =>
        have hq : pyStartsWith (r2KeyFor videoId clipHash t w) "http" = false :=
          hpre (t, w) hwmem
        show (if pyStartsWith (r2KeyFor videoId clipHash t w) "http" = true
            then some (r2KeyFor videoId clipHash t w) else none) =
          uploadRes (r2KeyFor videoId clipHash t w)
        rw [hq, hu]
        simp
      | some u =>
        have hq0 := hurl (t, w) hwmem
        rw [show r2KeyFor videoId clipHash (t, w).1 (t, w).2 =
          r2KeyFor videoId clipHash t w from rfl, hu] at hq0
        have hq : pyStartsWith u "http" = true := hq0
        show (if pyStartsWith u "http" = true then some u else none) =
          uploadRes (r2KeyFor videoId clipHash t w)
        rw [hq, hu]
        simp
  · intro p hp
    have hp' : p ∈ (applyUploads (wordClipsInit videoId clipHash clipOk seen)
        ((wordClipsInit videoId clipHash clipOk seen).map
          (fun q => (q.2, uploadRes q.2)))).filter
            (fun q => pyStartsWith q.2 "http") := hp
    have hq := List.of_mem_filter hp'
    exact hq

/-- C8 witness: two clipped words; the upload of "bad"'s clip fails and
"bad" is absent from the output, while "ok" maps to its full URL. -/
theorem C8_witness :
    ((([("ok", Word.mk "ok" 0 1 none), ("bad", Word.mk "bad" 2 3 none)] :
        List (String × Word)).map Prod.fst).Nodup ∧
      ((wordClipsInit "vid" (fun s _ => s) (fun _ => true)
        [("ok", Word.mk "ok" 0 1 none), ("bad", Word.mk "bad" 2 3 none)]).map
          Prod.snd).Nodup) ∧
    lookupS (clip_and_upload_words "vid" (fun s _ => s) (fun _ => true)
      (fun k => if k = "words/vid/ok.wav" then some "https://cdn/ok.wav" else none)
      [("ok", Word.mk "ok" 0 1 none), ("bad", Word.mk "bad" 2 3 none)]) "bad" =
      match lookupS (clippedWords (fun _ => true)
          [("ok", Word.mk "ok" 0 1 none), ("bad", Word.mk "bad" 2 3 none)]) "bad" with
      | some w => (fun k => if k = "words/vid/ok.wav" then some "https://cdn/ok.wav" else none)
          (r2KeyFor "vid" (fun s _ => s) "bad" w)
      | none => none :=
  ⟨⟨by decide, by decide⟩,
    (C8_failed_uploads_dropped "vid" (fun s _ => s) (fun _ => true)
      (fun k => if k = "words/vid/ok.wav" then some "https://cdn/ok.wav" else none)
      [("ok", Word.mk "ok" 0 1 none), ("bad", Word.mk "bad" 2 3 none)] "bad"
      (by decide) (by decide) (by decide) (by decide)).1⟩

end TK
